import Mathlib

/-!
Verification development for the awswipe repository.

The definitions below are a shallow embedding of the orchestration core:

* `src/awswipe/core/dependency_graph.py` — `DependencyGraph.add_node` and
  `DependencyGraph.get_execution_order` (Kahn's algorithm with a sort-based
  tie break and a cycle fallback).
* `src/awswipe/core/retry.py` — `retry_delete` and `retry_delete_with_backoff`.
* `src/awswipe/core/config.py` — the `Config` dataclass, `load_config` and
  `_parse_config`.
* `src/awswipe/resources/base.py` / `src/awswipe/cleaner.py` —
  `_record_result` (the report-append operation; the two copies have
  identical bodies) and the per-region execution loop of `cleanup_region`.
* `src/awswipe/cli.py` — the CLI override logic of `main`.

Modelling conventions: Python strings are `String` (Python `<` on strings and
Lean `≤` on `String` are both lexicographic on code points); Python ints used
as in-degrees are `ℤ` (they may go negative during the loop); float arithmetic
of the backoff delays is modelled exactly over `ℚ`; Python exceptions are
`Except`/explicit error results; Python dicts are insertion-ordered
association lists; a Python `set` is modelled by a canonical (sorted,
duplicate-free) enumeration, which is observationally faithful here because
`get_execution_order` only uses the node set through counts, membership and
explicitly sorted lists.
-/

namespace AWSwipe

/-! ## DependencyGraph (src/awswipe/core/dependency_graph.py)

A graph value is the sequence of `add_node(name, prerequisites)` calls made on
it.  `self.nodes` is the set of all names and prerequisites seen;
`self.prerequisites` is a dict, so a repeated `add_node` for the same name
overwrites the earlier prerequisite list (the last call wins). -/

abbrev AddCalls := List (String × List String)

/-- `DependencyGraph.add_node(name, prerequisites)`: records the call.  The
node set and the prerequisite dict are derived views below. -/
def add_node (g : AddCalls) (name : String) (prerequisites : List String) : AddCalls :=
  g ++ [(name, prerequisites)]

/-- Python string comparison `a <= b`: lexicographic on the code-point
sequences (Lean: the lexicographic order on the underlying `List Char`). -/
def strLe (a b : String) : Prop := a.data ≤ b.data

instance : DecidableRel strLe := fun a b => inferInstanceAs (Decidable (a.data ≤ b.data))

instance : IsTotal String strLe := ⟨fun a b => le_total a.data b.data⟩

instance : IsTrans String strLe := ⟨fun _ _ _ h1 h2 => le_trans h1 h2⟩

instance : IsAntisymm String strLe := ⟨fun a b h1 h2 => by
  have h : a.data = b.data := le_antisymm h1 h2
  cases a; cases b; exact congrArg String.mk (by simpa using h)⟩

instance : IsRefl String strLe := ⟨fun a => le_refl a.data⟩

/-- Ascending lexicographic sort, modelling Python `list.sort()` /
`sorted(...)` on strings. -/
def sortLex (l : List String) : List String := l.insertionSort strLe

/-- `self.nodes`: every added name together with every prerequisite ever
passed.  Canonical sorted duplicate-free enumeration of the Python set. -/
def gNodes (g : AddCalls) : List String :=
  sortLex ((g.map (fun c => c.1 :: c.2)).flatten.dedup)

/-- `self.prerequisites[n]` with dict overwrite semantics (last `add_node`
for `n` wins); `[]` when `n` has no entry. -/
def prereqsOf (g : AddCalls) (n : String) : List String :=
  match g.reverse.find? (fun c => c.1 == n) with
  | some c => c.2
  | none => []

/-- Number of entries of `l` that are in `done` (counting duplicate
occurrences of `l`).  Used to track how many in-degree decrements a node has
received once the processed list is `done`. -/
def processedCount (done : List String) : List String → ℕ
  | [] => 0
  | p :: ps => (if p ∈ done then 1 else 0) + processedCount done ps

/-- Effect on `in_degree` of the inner `for v in adj[u]` loop of
`get_execution_order`: each occurrence of `u` in `pre v` contributes one
decrement of `in_degree[v]`. -/
def stepIndeg (pre : String → List String) (indeg : String → ℤ) (u : String) :
    String → ℤ :=
  fun v => indeg v - ((pre v).count u : ℤ)

/-- The nodes appended to the queue while processing `u`: a node `v` is
appended exactly when the sequence of single decrements of `in_degree[v]`
passes through `0`, i.e. when `1 ≤ in_degree[v] ≤ (pre v).count u` before the
decrements.  (The order in which Python appends them is irrelevant because the
queue is sorted right afterwards.) -/
def crossedList (pre : String → List String) (ns : List String)
    (indeg : String → ℤ) (u : String) : List String :=
  ns.filter (fun v => decide (1 ≤ indeg v) && decide (indeg v ≤ ((pre v).count u : ℤ)))

/-- The `while queue:` loop of `get_execution_order`.  The queue is sorted at
seeding time and re-sorted after every iteration, so `queue.pop(0)` always
removes the lexicographically smallest ready node; we keep the queue as the
sorted list itself.  The loop performs at most one iteration per node (a node
enters the queue at most once: entering requires a current in-degree `≥ 1`
at cross time or `= 0` at seed time, and after entering its in-degree stays
`≤ 0` forever), so fuel `ns.length` never runs out before the queue empties;
this is proved as part of the invariant lemmas below. -/
def kahnLoop (pre : String → List String) (ns : List String) :
    ℕ → (String → ℤ) → List String → List String → List String
  | 0, _, _, acc => acc
  | _ + 1, _, [], acc => acc
  | fuel + 1, indeg, u :: rest, acc =>
    kahnLoop pre ns fuel (stepIndeg pre indeg u)
      (sortLex (rest ++ crossedList pre ns indeg u)) (acc ++ [u])

/-- Initial `in_degree`: `in_degree[v]` is incremented once per prerequisite
occurrence in `self.prerequisites[v]`, so it starts at the length of `pre v`. -/
def gIndeg0 (g : AddCalls) : String → ℤ := fun v => ((prereqsOf g v).length : ℤ)

/-- Initial queue: nodes of in-degree `0`, sorted. -/
def gQueue0 (g : AddCalls) : List String :=
  sortLex ((gNodes g).filter (fun v => decide (gIndeg0 g v = 0)))

/-- The `result` list produced by the `while` loop, before the cycle
fallback. -/
def kahnPart (g : AddCalls) : List String :=
  kahnLoop (prereqsOf g) (gNodes g) (gNodes g).length (gIndeg0 g) (gQueue0 g) []

/-- `DependencyGraph.get_execution_order`: the Kahn result, and when it is
shorter than the node count (a cycle), the remaining nodes sorted
lexicographically are appended (`remaining = self.nodes - set(result)`;
`result.extend(sorted(list(remaining)))`). -/
def get_execution_order (g : AddCalls) : List String :=
  let result := kahnPart g
  if result.length = (gNodes g).length then result
  else result ++ sortLex ((gNodes g).filter (fun v => decide (v ∉ result)))

/-- The ready set once exactly the nodes of `done` have been appended to the
result: unprocessed nodes all of whose prerequisite occurrences are
processed (in-degree zero). -/
def readyList (ns : List String) (pre : String → List String)
    (done : List String) : List String :=
  ns.filter (fun v => decide (v ∉ done) && decide (∀ p ∈ pre v, p ∈ done))

/-- The prerequisite relation of `g` contains a cycle: a nonempty closed walk
following declared prerequisites. -/
def HasCycle (g : AddCalls) : Prop :=
  ∃ (x : String) (k : ℕ) (w : ℕ → String),
    0 < k ∧ w 0 = x ∧ w k = x ∧ ∀ m, m < k → w (m + 1) ∈ prereqsOf g (w m)

/-! ## Config (src/awswipe/core/config.py) and CLI (src/awswipe/cli.py) -/

/-- The `Config` dataclass.  The two `TagFilters` dicts are inlined as
association lists (`tag_filters.include` / `tag_filters.exclude`;
`include` is a Lean keyword, hence the `tag_` prefix). -/
structure Config where
  regions : List String
  resource_types : List String
  tag_include : List (String × List String)
  tag_exclude : List (String × List String)
  exclude_patterns : List String
  dry_run : Bool
  json_logs : Bool
  verbosity : ℕ
  deriving Repr, DecidableEq

/-- The dataclass defaults of `Config`. -/
def defaultConfig : Config :=
  { regions := ["all"]
    resource_types := ["all"]
    tag_include := []
    tag_exclude := []
    exclude_patterns := []
    dry_run := true
    json_logs := false
    verbosity := 0 }

/-- The recognized keys of a YAML config file, as read by `_parse_config`
through `data.get(key, default)`: `none` models an absent key. -/
structure ConfigData where
  regions : Option (List String)
  resource_types : Option (List String)
  tag_include : Option (List (String × List String))
  tag_exclude : Option (List (String × List String))
  exclude_patterns : Option (List String)
  dry_run : Option Bool
  json_logs : Option Bool
  verbosity : Option ℕ
  deriving Repr, DecidableEq

/-- A `ConfigData` with every key absent (an empty YAML mapping). -/
def emptyConfigData : ConfigData :=
  ⟨none, none, none, none, none, none, none, none⟩

/-- `_parse_config(data)`. -/
def _parse_config (data : ConfigData) : Config :=
  { regions := data.regions.getD ["all"]
    resource_types := data.resource_types.getD ["all"]
    tag_include := data.tag_include.getD []
    tag_exclude := data.tag_exclude.getD []
    exclude_patterns := data.exclude_patterns.getD []
    dry_run := data.dry_run.getD true
    json_logs := data.json_logs.getD false
    verbosity := data.verbosity.getD 0 }

/-- `load_config(path)`: no path means the dataclass defaults, otherwise the
parsed file contents (the `FileNotFoundError` path is out of scope: the
argument is the successfully loaded YAML mapping). -/
def load_config : Option ConfigData → Config
  | none => defaultConfig
  | some data => _parse_config data

/-- The argparse namespace of `cli.parse_args`: `--region`, `-v` counts,
`--json-logs`, `--live-run` (all `store_true` flags default to false, the
count to 0). -/
structure Args where
  region : Option String
  verbose : ℕ
  json_logs : Bool
  live_run : Bool
  deriving Repr, DecidableEq

/-- The config-assembly portion of `cli.main`: load the config, then apply
the CLI overrides in source order (`region`, `verbose`, `json_logs`,
`live_run`; each guarded by the truthiness test of the arg). -/
def main_config (args : Args) (fileData : Option ConfigData) : Config :=
  let c := load_config fileData
  let c := match args.region with
    | some r => { c with regions := [r] }
    | none => c
  let c := if args.verbose ≠ 0 then { c with verbosity := args.verbose } else c
  let c := if args.json_logs then { c with json_logs := true } else c
  if args.live_run then { c with dry_run := false } else c

/-! ## Report and `_record_result` (src/awswipe/resources/base.py lines 12-38,
src/awswipe/cleaner.py lines 44-53; the two bodies are identical) -/

/-- One value of the report dict: `{'deleted': [...], 'failed': [...]}`. -/
structure ReportEntry where
  deleted : List String
  failed : List String
  deriving Repr, DecidableEq

/-- The `Report`: a dict `resource_type -> entry`, insertion ordered. -/
abbrev Report := List (String × ReportEntry)

/-- `{'deleted': [], 'failed': []}`. -/
def emptyEntry : ReportEntry := ⟨[], []⟩

/-- `msg = f"{resource_id} ({message})" if message else resource_id`. -/
def formatFailed (resource_id message : String) : String :=
  if message = "" then resource_id else resource_id ++ " (" ++ message ++ ")"

/-- Append `resource_id` to the `deleted` or `failed` list of an entry. -/
def updateEntry (e : ReportEntry) (resource_id : String) (success : Bool)
    (message : String) : ReportEntry :=
  if success then { e with deleted := e.deleted ++ [resource_id] }
  else { e with failed := e.failed ++ [formatFailed resource_id message] }

/-- `_record_result(resource_type, resource_id, success, message)`: under
`dry_run` it returns immediately; otherwise it creates the entry on first use
and appends.  Identical in `ResourceCleaner` and `SuperAWSResourceCleaner`. -/
def record_result (config : Config) (report : Report)
    (resource_type resource_id : String) (success : Bool) (message : String) :
    Report :=
  if config.dry_run then report
  else if (report.find? (fun kv => kv.1 == resource_type)).isSome then
    report.map (fun kv =>
      if kv.1 == resource_type then (kv.1, updateEntry kv.2 resource_id success message)
      else kv)
  else report ++ [(resource_type, updateEntry emptyEntry resource_id success message)]

/-! ## Retry presets (src/awswipe/core/retry.py) -/

/-- `SLEEP_SHORT = 2`, the default `base_delay` of
`retry_delete_with_backoff`. -/
def SLEEP_SHORT : ℚ := 2

/-- `retry_delete`: `code in ['Throttling', 'RequestLimitExceeded']`. -/
def rdRetryable (code : String) : Bool :=
  code == "Throttling" || code == "RequestLimitExceeded"

/-- `retry_delete_with_backoff`: `code in ['Throttling', 'RequestLimitExceeded']`. -/
def rdwbRetryable (code : String) : Bool :=
  code == "Throttling" || code == "RequestLimitExceeded"

/-- The sleep of `retry_delete` after failed attempt `attempt` (0-indexed):
`min(base_delay * (2 ** attempt) * jitter, 60)` with `base_delay = 1.2` and
`jitter = random.uniform(0.5, 1.5)`.  Exact rational arithmetic. -/
def rdDelay (attempt : ℕ) (jitter : ℚ) : ℚ :=
  min ((6 / 5) * 2 ^ attempt * jitter) 60

/-- The sleep of `retry_delete_with_backoff` after failed attempt `attempts`
(0-indexed): `base_delay * (2 ** (attempts - 1)) + random.uniform(0, 1)` —
note the integer exponent `attempts - 1` (Python evaluates `2 ** (-1)` as
`0.5`), the additive jitter and the absence of any cap. -/
def rdwbDelay (base : ℚ) (attempts : ℕ) (u : ℚ) : ℚ :=
  base * (2 : ℚ) ^ ((attempts : ℤ) - 1) + u

/-- One invocation of `operation()`: a return value or a raised
`ClientError` with an error code. -/
inductive OpOutcome (α : Type) where
  | ok (a : α)
  | err (code : String)
  deriving Repr, DecidableEq

/-- How a `retry_delete` call terminates. -/
inductive RDResult (α : Type) where
  | ok (a : α)
  | raised (code : String)
  | exhausted (msg : String)
  deriving Repr, DecidableEq

/-- Observable trace of a retry run: its outcome, how many times the
operation was invoked, and the sequence of sleeps performed. -/
structure RunTrace (ρ : Type) where
  result : ρ
  invocations : ℕ
  delays : List ℚ
  deriving Repr, DecidableEq

/-- The `for attempt in range(max_attempts)` loop of `retry_delete`; the
operation is a function of the invocation index, the jitter draws are an
input stream.  When the loop falls through, the exhaustion `Exception` is
raised with the message `f"Max retries ({max_attempts}) exceeded for
{description}"`. -/
def retryDeleteGo (op : ℕ → OpOutcome α) (description : String)
    (max_attempts : ℕ) (jitter : ℕ → ℚ) :
    ℕ → ℕ → RunTrace (RDResult α)
  | _, 0 =>
    ⟨.exhausted ("Max retries (" ++ toString max_attempts ++ ") exceeded for "
        ++ description), 0, []⟩
  | attempt, fuel + 1 =>
    match op attempt with
    | .ok a => ⟨.ok a, 1, []⟩
    | .err code =>
      if rdRetryable code then
        let t := retryDeleteGo op description max_attempts jitter (attempt + 1) fuel
        ⟨t.result, t.invocations + 1, rdDelay attempt (jitter attempt) :: t.delays⟩
      else ⟨.raised code, 1, []⟩

/-- `retry_delete(operation, description, max_attempts=8)`. -/
def retry_delete (op : ℕ → OpOutcome α) (description : String)
    (max_attempts : ℕ) (jitter : ℕ → ℚ) : RunTrace (RDResult α) :=
  retryDeleteGo op description max_attempts jitter 0 max_attempts

/-- The `while attempts < max_attempts` loop of `retry_delete_with_backoff`:
success returns `True`; a retryable `ClientError` sleeps and retries; a
non-retryable one returns `False`; falling out of the loop returns `False`. -/
def retryWBGo (op : ℕ → OpOutcome α) (base : ℚ) (u : ℕ → ℚ) :
    ℕ → ℕ → RunTrace Bool
  | _, 0 => ⟨false, 0, []⟩
  | attempts, fuel + 1 =>
    match op attempts with
    | .ok _ => ⟨true, 1, []⟩
    | .err code =>
      if rdwbRetryable code then
        let t := retryWBGo op base u (attempts + 1) fuel
        ⟨t.result, t.invocations + 1, rdwbDelay base attempts (u attempts) :: t.delays⟩
      else ⟨false, 1, []⟩

/-- `retry_delete_with_backoff(operation, description, max_attempts=8,
base_delay=SLEEP_SHORT)`. -/
def retry_delete_with_backoff (op : ℕ → OpOutcome α) (max_attempts : ℕ)
    (base : ℚ) (u : ℕ → ℚ) : RunTrace Bool :=
  retryWBGo op base u 0 max_attempts

/-! ## Region orchestration (src/awswipe/cleaner.py) -/

/-- The category-invocation loop of `cleanup_region` (lines 119-129 and
162-168): for each resource in the execution order, if a cleaner is
registered (or a legacy `delete_<resource>` method exists) it is invoked;
there is no `try/except` around the call, so a raised error aborts the loop
and propagates out of `cleanup_region`.  Returns the categories whose cleanup
was invoked, and the escaping error if any. -/
def run_in_order (hasCleaner : String → Bool)
    (cleanup : String → Except String Unit) :
    List String → List String × Option String
  | [] => ([], none)
  | r :: rest =>
    if hasCleaner r then
      match cleanup r with
      | .error e => ([r], some e)
      | .ok _ =>
        let t := run_in_order hasCleaner cleanup rest
        (r :: t.1, t.2)
    else run_in_order hasCleaner cleanup rest

/-- The per-region fan-out of `purge_aws`: each region task that raises is
caught (`except Exception as ex`), logged, and recorded through
`_record_result('Region Errors', region, False, str(ex))`; the remaining
regions are still processed.  (The thread pool is modelled sequentially; the
report append is the only shared mutation.) -/
def purge_regions (config : Config) (regionResult : String → Except String Unit) :
    List String → Report → Report
  | [], report => report
  | r :: rest, report =>
    match regionResult r with
    | .ok _ => purge_regions config regionResult rest report
    | .error e =>
      purge_regions config regionResult rest
        (record_result config report "Region Errors" r false e)

/-- The `cleaners_map` of `cleanup_region` (lines 91-105), in dict insertion
order, joined with what each cleaner class actually declares: `none` is a
placeholder entry (`None` value, skipped by `if cleaner:`); `some none` is a
cleaner instance whose class defines no `prerequisites` attribute (reading
`cleaner.prerequisites` raises `AttributeError`); `some (some ps)` is a
cleaner declaring `prerequisites = ps`.  Declarations read off
`src/awswipe/resources/*.py`: only `EC2Cleaner` (`[]`), `ASGCleaner`
(`['ec2']`), `VPCCleaner` and `SageMakerCleaner` (`[]`) define the
attribute. -/
def cleaners_map : List (String × Option (Option (List String))) :=
  [ ("s3", some none)
  , ("iam", some none)
  , ("ec2", some (some []))
  , ("ebs", some none)
  , ("lambda", some none)
  , ("elb", some none)
  , ("asg", some (some ["ec2"]))
  , ("vpc", some (some ["ec2", "ebs", "lambda", "elb", "asg", "rds", "elasticache", "efs"]))
  , ("sagemaker", some (some []))
  , ("rds", none)
  , ("elasticache", none)
  , ("efs", none) ]

/-- The `prerequisites` attribute of the EBS cleaner class
(`src/awswipe/resources/ebs.py`): the class body defines no such attribute. -/
def ebsDeclaredPrereqs : Option (List String) :=
  match cleaners_map.find? (fun kv => kv.1 == "ebs") with
  | some kv => kv.2.getD none
  | none => none

/-- The graph-building loop of `cleanup_region` (lines 107-114):
`graph.add_node(name, cleaner.prerequisites)` for every registered cleaner,
in map order; reading a missing `prerequisites` attribute raises
`AttributeError` and aborts `cleanup_region` on the spot. -/
def registerCleaners : List (String × Option (Option (List String))) → AddCalls →
    Except String AddCalls
  | [], g => .ok g
  | (_, none) :: rest, g => registerCleaners rest g
  | (name, some none) :: _, _ =>
    .error ("AttributeError: " ++ name ++ " cleaner object has no attribute prerequisites")
  | (name, some (some ps)) :: rest, g => registerCleaners rest (add_node g name ps)

/-- Loop invariant of `kahnLoop`, tying the in-degree table to the processed
prefix `acc` and the queue: processed and queued nodes are distinct members
of `ns` with non-positive in-degree, `indeg v` is always
`len (pre v) - processedCount acc (pre v)`, every node is processed, queued,
or still has positive in-degree, the queue is sorted, and every processed
node was preceded by all its prerequisites. -/
structure KahnInv (pre : String → List String) (ns : List String)
    (indeg : String → ℤ) (queue acc : List String) : Prop where
  nodup : (acc ++ queue).Nodup
  mem_ns : ∀ v ∈ acc ++ queue, v ∈ ns
  nonpos : ∀ v ∈ acc ++ queue, indeg v ≤ 0
  indeg_eq : ∀ v, indeg v = ((pre v).length : ℤ) - (processedCount acc (pre v) : ℤ)
  covered : ∀ v ∈ ns, v ∈ acc ∨ v ∈ queue ∨ 1 ≤ indeg v
  sortedQ : List.Sorted strLe queue
  accClosed : ∀ l1 n l2, acc = l1 ++ n :: l2 → ∀ p ∈ pre n, p ∈ l1

/-! ## Helper lemmas -/

theorem sortLex_perm (l : List String) : List.Perm (sortLex l) l :=
  List.perm_insertionSort strLe l

theorem sortLex_sorted (l : List String) : List.Sorted strLe (sortLex l) :=
  List.sorted_insertionSort strLe l

theorem mem_sortLex {a : String} {l : List String} : a ∈ sortLex l ↔ a ∈ l :=
  (sortLex_perm l).mem_iff

theorem sortLex_nodup {l : List String} (h : l.Nodup) : (sortLex l).Nodup :=
  ((sortLex_perm l).nodup_iff).mpr h

theorem gNodes_nodup (g : AddCalls) : (gNodes g).Nodup :=
  sortLex_nodup (List.nodup_dedup _)

theorem gNodes_sorted (g : AddCalls) : List.Sorted strLe (gNodes g) :=
  sortLex_sorted _

theorem mem_gNodes {g : AddCalls} {a : String} :
    a ∈ gNodes g ↔ ∃ c ∈ g, a = c.1 ∨ a ∈ c.2 := by
  unfold gNodes
  rw [mem_sortLex, List.mem_dedup, List.mem_flatten]
  constructor
  · rintro ⟨l, hl, hal⟩
    obtain ⟨c, hc, rfl⟩ := List.mem_map.mp hl
    rcases List.mem_cons.mp hal with h | h
    · exact ⟨c, hc, Or.inl h⟩
    · exact ⟨c, hc, Or.inr h⟩
  · rintro ⟨c, hc, h | h⟩
    · exact ⟨c.1 :: c.2, List.mem_map.mpr ⟨c, hc, rfl⟩, by simp [h]⟩
    · exact ⟨c.1 :: c.2, List.mem_map.mpr ⟨c, hc, rfl⟩, by simp [h]⟩

/-- Every declared prerequisite and its declaring node belong to the node
set (the `add_node` loop inserts both). -/
theorem mem_gNodes_of_prereq {g : AddCalls} {n p : String}
    (h : p ∈ prereqsOf g n) : p ∈ gNodes g ∧ n ∈ gNodes g := by
  unfold prereqsOf at h
  rcases hf : g.reverse.find? (fun c => c.1 == n) with _ | c
  · rw [hf] at h; simp at h
  · rw [hf] at h
    have hc : c ∈ g := List.mem_reverse.mp (List.mem_of_find?_eq_some hf)
    have hcn : c.1 = n := by
      have := List.find?_some hf
      simpa using this
    exact ⟨mem_gNodes.mpr ⟨c, hc, Or.inr h⟩,
           mem_gNodes.mpr ⟨c, hc, Or.inl hcn.symm⟩⟩

theorem prereqsOf_nil (n : String) : prereqsOf [] n = [] := rfl

theorem prereqsOf_append_singleton (g : AddCalls) (m : String)
    (ps : List String) (n : String) :
    prereqsOf (g ++ [(m, ps)]) n = if n = m then ps else prereqsOf g n := by
  unfold prereqsOf
  rw [List.reverse_append]
  by_cases h : n = m
  · subst h; simp
  · have hm : (m == n) = false := beq_eq_false_iff_ne.mpr (Ne.symm h)
    simp [List.find?, hm, h]

theorem processedCount_nil (l : List String) : processedCount [] l = 0 := by
  induction l with
  | nil => rfl
  | cons p ps ih => simp [processedCount, ih]

theorem processedCount_le_length (done l : List String) :
    processedCount done l ≤ l.length := by
  induction l with
  | nil => simp [processedCount]
  | cons p ps ih =>
    by_cases h : p ∈ done <;> simp [processedCount, h] <;> omega

theorem processedCount_eq_length_iff (done l : List String) :
    processedCount done l = l.length ↔ ∀ p ∈ l, p ∈ done := by
  induction l with
  | nil => simp [processedCount]
  | cons p ps ih =>
    by_cases h : p ∈ done
    · simp only [processedCount, h, if_true, List.length_cons, List.mem_cons]
      constructor
      · intro he q hq
        rcases hq with rfl | hq
        · exact h
        · exact (ih.mp (by omega)) q hq
      · intro hall
        have := ih.mpr (fun q hq => hall q (Or.inr hq))
        omega
    · simp only [processedCount, h, if_false, List.length_cons, List.mem_cons]
      constructor
      · intro he
        exfalso
        have := processedCount_le_length done ps
        omega
      · intro hall
        exact absurd (hall p (Or.inl rfl)) h

theorem processedCount_append_singleton {done : List String} {u : String}
    (hu : u ∉ done) (l : List String) :
    processedCount (done ++ [u]) l = processedCount done l + l.count u := by
  induction l with
  | nil => simp [processedCount]
  | cons p ps ih =>
    have hcount : List.count u (p :: ps) = List.count u ps + (if p = u then 1 else 0) := by
      simp [List.count_cons]
    by_cases hp : p ∈ done
    · have hpu : p ≠ u := fun he => hu (he ▸ hp)
      have h1 : p ∈ done ++ [u] := by simp [hp]
      simp only [processedCount]
      rw [if_pos h1, if_pos hp, ih, hcount, if_neg hpu]
      omega
    · by_cases hpu : p = u
      · have h1 : p ∈ done ++ [u] := by simp [hpu]
        simp only [processedCount]
        rw [if_pos h1, if_neg hp, ih, hcount, if_pos hpu]
        omega
      · have h1 : p ∉ done ++ [u] := by simp [hp, hpu]
        simp only [processedCount]
        rw [if_neg h1, if_neg hp, ih, hcount, if_neg hpu]
        omega

theorem append_singleton_split {α : Type} {l l1 l2 : List α} {u n : α}
    (h : l ++ [u] = l1 ++ n :: l2) :
    (l1 = l ∧ n = u ∧ l2 = []) ∨ ∃ l2x, l2 = l2x ++ [u] ∧ l = l1 ++ n :: l2x := by
  rcases List.eq_nil_or_concat l2 with rfl | ⟨l2x, x, rfl⟩
  · left
    have h2 : l ++ [u] = l1 ++ [n] := h
    obtain ⟨h3, h4⟩ := List.append_inj' h2 (by simp)
    have hun : u = n := by simpa using h4
    exact ⟨h3.symm, hun.symm, rfl⟩
  · right
    have h2 : l ++ [u] = (l1 ++ n :: l2x) ++ [x] := by rw [h]; simp
    obtain ⟨h3, h4⟩ := List.append_inj' h2 (by simp)
    have hux : u = x := by simpa using h4
    exact ⟨l2x, by rw [hux, List.concat_eq_append], h3⟩

/-- One iteration of the `while` loop preserves the invariant. -/
theorem KahnInv.step {pre : String → List String} {ns : List String}
    {indeg : String → ℤ} {u : String} {rest acc : List String}
    (hnd : ns.Nodup) (inv : KahnInv pre ns indeg (u :: rest) acc) :
    KahnInv pre ns (stepIndeg pre indeg u)
      (sortLex (rest ++ crossedList pre ns indeg u)) (acc ++ [u]) := by
  have mem_newly : ∀ {v}, v ∈ crossedList pre ns indeg u ↔
      v ∈ ns ∧ 1 ≤ indeg v ∧ indeg v ≤ ((pre v).count u : ℤ) := by
    intro v
    simp [crossedList, List.mem_filter, and_assoc]
  have hqmem : ∀ {v}, v ∈ sortLex (rest ++ crossedList pre ns indeg u) ↔
      v ∈ rest ∨ v ∈ crossedList pre ns indeg u := by
    intro v; rw [mem_sortLex, List.mem_append]
  have hnodup_old : (acc ++ u :: rest).Nodup := inv.nodup
  have hu_not_acc : u ∉ acc := by
    rw [List.nodup_append] at hnodup_old
    exact fun h => hnodup_old.2.2 h (by simp)
  have hnodup_old' : (acc ++ u :: rest).Nodup := inv.nodup
  have hnewly_not_old : ∀ v ∈ crossedList pre ns indeg u, v ∉ acc ++ u :: rest := by
    intro v hv hvold
    have h1 := (mem_newly.mp hv).2.1
    have h2 := inv.nonpos v hvold
    omega
  have hnewly_nodup : (crossedList pre ns indeg u).Nodup := List.Nodup.filter _ hnd
  refine ⟨?_, ?_, ?_, ?_, ?_, sortLex_sorted _, ?_⟩
  · -- nodup
    have h1 : List.Perm (sortLex (rest ++ crossedList pre ns indeg u))
        (rest ++ crossedList pre ns indeg u) := sortLex_perm _
    have h2 := List.Perm.append_left (acc ++ [u]) h1
    have h3 : (acc ++ [u]) ++ (rest ++ crossedList pre ns indeg u) =
        (acc ++ u :: rest) ++ crossedList pre ns indeg u := by simp
    rw [h3] at h2
    rw [List.Perm.nodup_iff h2, List.nodup_append]
    exact ⟨hnodup_old', hnewly_nodup, fun a ha hb => hnewly_not_old a hb ha⟩
  · -- mem_ns
    intro v hv
    rcases List.mem_append.mp hv with h | h
    · rcases List.mem_append.mp h with h1 | h1
      · exact inv.mem_ns v (by simp [h1])
      · have hvu : v = u := by simpa using h1
        subst hvu
        exact inv.mem_ns v (by simp)
    · rcases hqmem.mp h with h1 | h1
      · exact inv.mem_ns v (by simp [h1])
      · exact (mem_newly.mp h1).1
  · -- nonpos
    intro v hv
    have hstep : stepIndeg pre indeg u v = indeg v - ((pre v).count u : ℤ) := rfl
    have hc : (0 : ℤ) ≤ ((pre v).count u : ℤ) := Int.natCast_nonneg _
    rcases List.mem_append.mp hv with h | h
    · have hvm : v ∈ acc ++ u :: rest := by
        rcases List.mem_append.mp h with h1 | h1
        · simp [h1]
        · have hvu : v = u := by simpa using h1
          simp [hvu]
      have := inv.nonpos v hvm
      omega
    · rcases hqmem.mp h with h1 | h1
      · have := inv.nonpos v (by simp [h1])
        omega
      · have := (mem_newly.mp h1).2.2
        omega
  · -- indeg_eq
    intro v
    have h1 := inv.indeg_eq v
    have h2 := processedCount_append_singleton hu_not_acc (pre v)
    have hstep : stepIndeg pre indeg u v = indeg v - ((pre v).count u : ℤ) := rfl
    rw [hstep, h1, h2]
    push_cast
    ring
  · -- covered
    intro v hv
    have hstep : stepIndeg pre indeg u v = indeg v - ((pre v).count u : ℤ) := rfl
    rcases inv.covered v hv with h | h | h
    · exact Or.inl (by simp [h])
    · rcases List.mem_cons.mp h with rfl | h1
      · exact Or.inl (by simp)
      · exact Or.inr (Or.inl (hqmem.mpr (Or.inl h1)))
    · by_cases hc : indeg v ≤ ((pre v).count u : ℤ)
      · exact Or.inr (Or.inl (hqmem.mpr (Or.inr (mem_newly.mpr ⟨hv, h, hc⟩))))
      · right; right
        omega
  · -- accClosed
    intro l1 n l2 heq p hp
    rcases append_singleton_split heq with ⟨h1, h2, h3⟩ | ⟨l2x, hl2, hacc⟩
    · subst h1; subst h2
      have hiu : indeg n ≤ 0 := inv.nonpos n (by simp)
      have hieq := inv.indeg_eq n
      have hle := processedCount_le_length l1 (pre n)
      have hful : processedCount l1 (pre n) = (pre n).length := by omega
      exact (processedCount_eq_length_iff l1 (pre n)).mp hful p hp
    · exact inv.accClosed l1 n l2x hacc p hp

/-- The invariant holds at the entry of the `while` loop. -/
theorem kahnInv_init (g : AddCalls) :
    KahnInv (prereqsOf g) (gNodes g) (gIndeg0 g) (gQueue0 g) [] := by
  refine ⟨?_, ?_, ?_, ?_, ?_, sortLex_sorted _, ?_⟩
  · simp only [List.nil_append]
    exact sortLex_nodup (List.Nodup.filter _ (gNodes_nodup g))
  · intro v hv
    simp only [List.nil_append] at hv
    exact List.mem_of_mem_filter (mem_sortLex.mp hv)
  · intro v hv
    simp only [List.nil_append] at hv
    have := List.of_mem_filter (mem_sortLex.mp hv)
    simp only [decide_eq_true_eq] at this
    omega
  · intro v
    simp [gIndeg0, processedCount_nil]
  · intro v hv
    by_cases h : gIndeg0 g v = 0
    · right; left
      unfold gQueue0
      rw [mem_sortLex, List.mem_filter]
      exact ⟨hv, by simp [h]⟩
    · right; right
      have hpos : (0 : ℤ) ≤ gIndeg0 g v := Int.natCast_nonneg _
      omega
  · intro l1 n l2 h
    exact absurd h (by simp)

/-- Master lemma about `kahnLoop` runs from an invariant-satisfying state
with fuel matching the number of unprocessed nodes: the run extends `acc`,
ends in an invariant state with an empty queue (in particular the fuel never
runs out before the queue empties), and every node appended after `acc` is
the lexicographically smallest member of the ready set at its step. -/
theorem kahnLoop_spec (pre : String → List String) (ns : List String)
    (hnd : ns.Nodup) (hsrt : List.Sorted strLe ns) :
    ∀ (fuel : ℕ) (indeg : String → ℤ) (queue acc : List String),
      KahnInv pre ns indeg queue acc → fuel + acc.length = ns.length →
      (∃ ext, kahnLoop pre ns fuel indeg queue acc = acc ++ ext) ∧
      (∃ indegF, KahnInv pre ns indegF [] (kahnLoop pre ns fuel indeg queue acc)) ∧
      (∀ l1 u l2, kahnLoop pre ns fuel indeg queue acc = l1 ++ u :: l2 →
        acc.length ≤ l1.length →
        u ∈ readyList ns pre l1 ∧ ∀ v ∈ readyList ns pre l1, strLe u v) := by
  intro fuel
  induction fuel with
  | zero =>
    intro indeg queue acc inv hfuel
    have hae : (acc ++ queue).Nodup := inv.nodup
    have hsub : acc ⊆ ns := fun a ha => inv.mem_ns a (by simp [ha])
    have haccnd : acc.Nodup := (List.nodup_append.mp hae).1
    have hperm : List.Perm acc ns := by
      have hsp : acc.Subperm ns := List.Nodup.subperm haccnd hsub
      exact hsp.perm_of_length_le (by omega)
    have hq : queue = [] := by
      rcases queue with _ | ⟨q, qs⟩
      · rfl
      · exfalso
        have hq_ns : q ∈ ns := inv.mem_ns q (by simp)
        have hq_acc : q ∈ acc := hperm.mem_iff.mpr hq_ns
        rw [List.nodup_append] at hae
        exact hae.2.2 hq_acc (by simp)
    subst hq
    refine ⟨⟨[], by simp [kahnLoop]⟩, ⟨indeg, ?_⟩, ?_⟩
    · simpa only [kahnLoop] using inv
    · intro l1 u l2 hr hlen
      exfalso
      rw [show kahnLoop pre ns 0 indeg [] acc = acc from rfl] at hr
      have := congrArg List.length hr
      simp at this
      omega
  | succ n ih =>
    intro indeg queue acc inv hfuel
    cases queue with
    | nil =>
      refine ⟨⟨[], by simp [kahnLoop]⟩, ⟨indeg, by simpa only [kahnLoop] using inv⟩, ?_⟩
      intro l1 u l2 hr hlen
      exfalso
      rw [show kahnLoop pre ns (n + 1) indeg [] acc = acc from rfl] at hr
      have := congrArg List.length hr
      simp at this
      omega
    | cons u rest =>
      have inv' := KahnInv.step hnd inv
      have hfuel' : n + (acc ++ [u]).length = ns.length := by
        simp only [List.length_append, List.length_cons, List.length_nil]
        omega
      have hred : kahnLoop pre ns (n + 1) indeg (u :: rest) acc =
          kahnLoop pre ns n (stepIndeg pre indeg u)
            (sortLex (rest ++ crossedList pre ns indeg u)) (acc ++ [u]) := rfl
      obtain ⟨⟨ext, hext⟩, hinv, ho5⟩ :=
        ih (stepIndeg pre indeg u) (sortLex (rest ++ crossedList pre ns indeg u))
          (acc ++ [u]) inv' hfuel'
      refine ⟨⟨u :: ext, by rw [hred, hext]; simp⟩, by rw [hred]; exact hinv, ?_⟩
      intro l1 v l2 hr hlen
      rw [hred] at hr
      rcases Nat.lt_or_ge acc.length l1.length with hlt | hge
      · refine ho5 l1 v l2 hr ?_
        simp only [List.length_append, List.length_cons, List.length_nil]
        omega
      · have hleq : acc.length = l1.length := by omega
        rw [hext] at hr
        have hr3 : acc ++ u :: ext = l1 ++ v :: l2 := by simpa using hr
        obtain ⟨h4, h5⟩ := List.append_inj hr3 hleq
        have h6 : u = v ∧ ext = l2 := by
          injection h5 with h6a h6b
          exact ⟨h6a, h6b⟩
        obtain ⟨rfl, -⟩ := h6
        subst h4
        -- the queue is exactly the ready set after processing `acc`
        have hq_eq : readyList ns pre acc = u :: rest := by
          have hqnodup : (u :: rest).Nodup := (List.nodup_append.mp inv.nodup).2.1
          have hrnodup : (readyList ns pre acc).Nodup := List.Nodup.filter _ hnd
          have hmemiff : ∀ a, a ∈ readyList ns pre acc ↔ a ∈ u :: rest := by
            intro a
            unfold readyList
            rw [List.mem_filter]
            simp only [Bool.and_eq_true, decide_eq_true_eq]
            constructor
            · rintro ⟨hans, hrest⟩
              obtain ⟨hnacc, hall⟩ := hrest
              rcases inv.covered a hans with h | h | h
              · exact absurd h hnacc
              · exact h
              · exfalso
                have hieq := inv.indeg_eq a
                have hfull : processedCount acc (pre a) = (pre a).length :=
                  (processedCount_eq_length_iff acc (pre a)).mpr hall
                omega
            · intro ha
              have hans : a ∈ ns := inv.mem_ns a (by simp [ha])
              have hnacc : a ∉ acc := fun hacc =>
                (List.nodup_append.mp inv.nodup).2.2 hacc ha
              have hnp := inv.nonpos a (by simp [ha])
              have hieq := inv.indeg_eq a
              have hle := processedCount_le_length acc (pre a)
              have hfull : processedCount acc (pre a) = (pre a).length := by omega
              exact ⟨hans, hnacc,
                (processedCount_eq_length_iff acc (pre a)).mp hfull⟩
          have hperm2 : List.Perm (readyList ns pre acc) (u :: rest) :=
            (List.perm_ext_iff_of_nodup hrnodup hqnodup).mpr hmemiff
          have hsort1 : List.Sorted strLe (readyList ns pre acc) :=
            List.Pairwise.sublist (List.filter_sublist _) hsrt
          exact List.eq_of_perm_of_sorted hperm2 hsort1 inv.sortedQ
        constructor
        · rw [hq_eq]; simp
        · intro v hv
          rw [hq_eq] at hv
          rcases List.mem_cons.mp hv with rfl | hv
          · exact le_refl _
          · exact (List.sorted_cons.mp inv.sortedQ).1 v hv

/-- `get_execution_order` with its `let` unfolded. -/
theorem get_execution_order_eq (g : AddCalls) :
    get_execution_order g =
      if (kahnPart g).length = (gNodes g).length then kahnPart g
      else kahnPart g ++
        sortLex ((gNodes g).filter (fun v => decide (v ∉ kahnPart g))) := rfl

/-- The invariant consequences, instantiated at the actual loop entry of
`get_execution_order`. -/
theorem kahnPart_spec (g : AddCalls) :
    (∃ indegF, KahnInv (prereqsOf g) (gNodes g) indegF [] (kahnPart g)) ∧
    (∀ l1 u l2, kahnPart g = l1 ++ u :: l2 →
      u ∈ readyList (gNodes g) (prereqsOf g) l1 ∧
      ∀ v ∈ readyList (gNodes g) (prereqsOf g) l1, strLe u v) := by
  have h := kahnLoop_spec (prereqsOf g) (gNodes g) (gNodes_nodup g) (gNodes_sorted g)
    (gNodes g).length (gIndeg0 g) (gQueue0 g) [] (kahnInv_init g) (by simp)
  exact ⟨h.2.1, fun l1 u l2 hr => h.2.2 l1 u l2 hr (by simp)⟩

theorem kahnPart_nodup (g : AddCalls) : (kahnPart g).Nodup := by
  obtain ⟨indegF, inv⟩ := (kahnPart_spec g).1
  have h := inv.nodup
  simpa using h

theorem kahnPart_subset (g : AddCalls) : ∀ v ∈ kahnPart g, v ∈ gNodes g := by
  obtain ⟨indegF, inv⟩ := (kahnPart_spec g).1
  intro v hv
  exact inv.mem_ns v (by simp [hv])

theorem kahnPart_accClosed (g : AddCalls) :
    ∀ l1 n l2, kahnPart g = l1 ++ n :: l2 → ∀ p ∈ prereqsOf g n, p ∈ l1 := by
  obtain ⟨indegF, inv⟩ := (kahnPart_spec g).1
  exact inv.accClosed

/-- A node left out of the Kahn result has a prerequisite that is also left
out (this is what makes the leftover a cycle-bearing family). -/
theorem kahnPart_incomplete (g : AddCalls) :
    ∀ v ∈ gNodes g, v ∉ kahnPart g →
      ∃ p, p ∈ prereqsOf g v ∧ p ∉ kahnPart g := by
  obtain ⟨indegF, inv⟩ := (kahnPart_spec g).1
  intro v hv hnv
  rcases inv.covered v hv with h | h | h
  · exact absurd h hnv
  · simp at h
  · have hieq := inv.indeg_eq v
    by_contra hc
    push_neg at hc
    have hfull : processedCount (kahnPart g) (prereqsOf g v) = (prereqsOf g v).length :=
      (processedCount_eq_length_iff _ _).mpr hc
    omega

/-- Unconditionally, `get_execution_order` is a permutation of the node
set. -/
theorem get_execution_order_perm (g : AddCalls) :
    List.Perm (get_execution_order g) (gNodes g) := by
  rw [get_execution_order_eq]
  by_cases h : (kahnPart g).length = (gNodes g).length
  · rw [if_pos h]
    have hsp : (kahnPart g).Subperm (gNodes g) :=
      List.Nodup.subperm (kahnPart_nodup g) (kahnPart_subset g)
    exact hsp.perm_of_length_le (by omega)
  · rw [if_neg h]
    have hsub := kahnPart_subset g
    have hnd := kahnPart_nodup g
    have h1 : List.Perm (kahnPart g)
        ((gNodes g).filter (fun v => decide (v ∈ kahnPart g))) := by
      apply (List.perm_ext_iff_of_nodup hnd (List.Nodup.filter _ (gNodes_nodup g))).mpr
      intro a
      rw [List.mem_filter]
      simp only [decide_eq_true_eq]
      exact ⟨fun ha => ⟨hsub a ha, ha⟩, fun ha => ha.2⟩
    have h2 : List.Perm (sortLex ((gNodes g).filter (fun v => decide (v ∉ kahnPart g))))
        ((gNodes g).filter (fun v => decide (v ∉ kahnPart g))) := sortLex_perm _
    have h3 := List.Perm.append h1 h2
    have h4 : List.Perm ((gNodes g).filter (fun v => decide (v ∈ kahnPart g)) ++
        (gNodes g).filter (fun v => decide (v ∉ kahnPart g))) (gNodes g) := by
      have hfp := List.filter_append_perm (fun v => decide (v ∈ kahnPart g)) (gNodes g)
      have hfe : ((gNodes g).filter (fun v => !decide (v ∈ kahnPart g))) =
          ((gNodes g).filter (fun v => decide (v ∉ kahnPart g))) := by
        apply List.filter_congr
        intro a _
        simp [decide_not]
      rw [hfe] at hfp
      exact hfp
    exact h3.trans h4

/-- A nonempty family in which every member has a prerequisite inside the
family yields a cycle (choice plus pigeonhole on iterates). -/
theorem hasCycle_of_closed_family (g : AddCalls) (RL : List String)
    (hne : RL ≠ []) (hstep : ∀ v ∈ RL, ∃ p, p ∈ prereqsOf g v ∧ p ∈ RL) :
    HasCycle g := by
  classical
  have hchoice : ∃ f : String → String, ∀ v ∈ RL, f v ∈ prereqsOf g v ∧ f v ∈ RL := by
    refine ⟨fun v => if h : ∃ p, p ∈ prereqsOf g v ∧ p ∈ RL then h.choose else v, ?_⟩
    intro v hv
    have hex := hstep v hv
    show (if h : ∃ p, p ∈ prereqsOf g v ∧ p ∈ RL then h.choose else v) ∈ prereqsOf g v ∧
        (if h : ∃ p, p ∈ prereqsOf g v ∧ p ∈ RL then h.choose else v) ∈ RL
    rw [dif_pos hex]
    exact hex.choose_spec
  obtain ⟨f, hf⟩ := hchoice
  obtain ⟨v0, hv0⟩ : ∃ v, v ∈ RL := by
    rcases RL with _ | ⟨a, t⟩
    · exact absurd rfl hne
    · exact ⟨a, by simp⟩
  have hiter : ∀ m : ℕ, f^[m] v0 ∈ RL := by
    intro m
    induction m with
    | zero => simpa using hv0
    | succ i ihm =>
      rw [Function.iterate_succ_apply']
      exact (hf _ ihm).2
  have hmain : ∀ i j : ℕ, i < j → f^[i] v0 = f^[j] v0 → HasCycle g := by
    intro i j hij heq2
    refine ⟨f^[i] v0, j - i, fun m => f^[i + m] v0, by omega, by simp, ?_, ?_⟩
    · show f^[i + (j - i)] v0 = f^[i] v0
      rw [show i + (j - i) = j by omega]
      exact heq2.symm
    · intro m hm
      have hmem := hiter (i + m)
      have hsucc : f^[i + (m + 1)] v0 = f (f^[i + m] v0) := by
        rw [show i + (m + 1) = (i + m) + 1 by omega, Function.iterate_succ_apply']
      show f^[i + (m + 1)] v0 ∈ prereqsOf g (f^[i + m] v0)
      rw [hsucc]
      exact (hf _ hmem).1
  have hcard : (RL.toFinset).card < (Finset.range (RL.toFinset.card + 1)).card := by
    simp
  have hmaps : ∀ i ∈ Finset.range (RL.toFinset.card + 1), f^[i] v0 ∈ RL.toFinset :=
    fun i _ => List.mem_toFinset.mpr (hiter i)
  obtain ⟨i, hi, j, hj, hne2, heq⟩ :=
    Finset.exists_ne_map_eq_of_card_lt_of_maps_to hcard hmaps
  rcases Nat.lt_or_ge i j with h1 | h1
  · exact hmain i j h1 heq
  · have h2 : j < i := by omega
    exact hmain j i h2 heq.symm

/-- A ranking that strictly increases along declared prerequisites certifies
acyclicity. -/
theorem not_hasCycle_of_rank (g : AddCalls) (rank : String → ℕ)
    (hr : ∀ n p, p ∈ prereqsOf g n → rank p < rank n) : ¬ HasCycle g := by
  rintro ⟨x, k, w, hk, h0, hkx, hstep⟩
  have hmono : ∀ m, m ≤ k → rank (w m) + m ≤ rank (w 0) := by
    intro m
    induction m with
    | zero => simp
    | succ i ihm =>
      intro hik
      have h1 := ihm (by omega)
      have h2 := hr (w i) (w (i + 1)) (hstep i (by omega))
      omega
  have hfin := hmono k le_rfl
  rw [hkx, h0] at hfin
  omega

/-- On an acyclic graph the `while` loop processes every node, so the cycle
fallback never fires. -/
theorem kahnPart_complete_of_acyclic (g : AddCalls) (h : ¬ HasCycle g) :
    (kahnPart g).length = (gNodes g).length := by
  by_contra hne
  have hsub := kahnPart_subset g
  have hnd := kahnPart_nodup g
  have hsp : (kahnPart g).Subperm (gNodes g) := List.Nodup.subperm hnd hsub
  have hlt : (kahnPart g).length < (gNodes g).length :=
    lt_of_le_of_ne (List.Subperm.length_le hsp) hne
  have hne2 : (gNodes g).filter (fun v => decide (v ∉ kahnPart g)) ≠ [] := by
    intro he
    have hall : ∀ v ∈ gNodes g, v ∈ kahnPart g := by
      intro v hv
      by_contra hnv
      have hmem : v ∈ (gNodes g).filter (fun v => decide (v ∉ kahnPart g)) := by
        rw [List.mem_filter]
        exact ⟨hv, by simp [hnv]⟩
      rw [he] at hmem
      simp at hmem
    have hsp2 : (gNodes g).Subperm (kahnPart g) :=
      List.Nodup.subperm (gNodes_nodup g) hall
    have := List.Subperm.length_le hsp2
    omega
  have hstep : ∀ v ∈ (gNodes g).filter (fun v => decide (v ∉ kahnPart g)),
      ∃ p, p ∈ prereqsOf g v ∧
        p ∈ (gNodes g).filter (fun v => decide (v ∉ kahnPart g)) := by
    intro v hv
    rw [List.mem_filter] at hv
    obtain ⟨hvns, hvn⟩ := hv
    simp only [decide_eq_true_eq] at hvn
    obtain ⟨p, hp1, hp2⟩ := kahnPart_incomplete g v hvns hvn
    have hpns : p ∈ gNodes g := (mem_gNodes_of_prereq hp1).1
    refine ⟨p, hp1, ?_⟩
    rw [List.mem_filter]
    exact ⟨hpns, by simp [hp2]⟩
  exact h (hasCycle_of_closed_family g _ hne2 hstep)

/-- `kahnLoop` only consumes the prerequisite table through per-node
occurrence counts, so pointwise-permuted tables give the same run. -/
theorem kahnLoop_congr (pre1 pre2 : String → List String) (ns : List String)
    (hp : ∀ v, List.Perm (pre1 v) (pre2 v)) :
    ∀ fuel indeg queue acc,
      kahnLoop pre1 ns fuel indeg queue acc = kahnLoop pre2 ns fuel indeg queue acc := by
  intro fuel
  induction fuel with
  | zero => intro indeg queue acc; rfl
  | succ n ih =>
    intro indeg queue acc
    cases queue with
    | nil => rfl
    | cons u rest =>
      have hc : crossedList pre1 ns indeg u = crossedList pre2 ns indeg u := by
        unfold crossedList
        apply List.filter_congr
        intro v _
        rw [(hp v).count_eq]
      have hs : stepIndeg pre1 indeg u = stepIndeg pre2 indeg u := by
        funext v
        unfold stepIndeg
        rw [(hp v).count_eq]
      have e1 : kahnLoop pre1 ns (n + 1) indeg (u :: rest) acc =
          kahnLoop pre1 ns n (stepIndeg pre1 indeg u)
            (sortLex (rest ++ crossedList pre1 ns indeg u)) (acc ++ [u]) := rfl
      have e2 : kahnLoop pre2 ns (n + 1) indeg (u :: rest) acc =
          kahnLoop pre2 ns n (stepIndeg pre2 indeg u)
            (sortLex (rest ++ crossedList pre2 ns indeg u)) (acc ++ [u]) := rfl
      rw [e1, e2, hc, hs, ih]

/-- Under a hypothesis of always-retryable failures, the
`retry_delete_with_backoff` loop uses all its fuel and returns `False`. -/
theorem retryWBGo_always_retry {α : Type} (op : ℕ → OpOutcome α) (base : ℚ)
    (u : ℕ → ℚ) (h : ∀ k, ∃ c, op k = OpOutcome.err c ∧ rdwbRetryable c = true) :
    ∀ fuel attempts, (retryWBGo op base u attempts fuel).result = false ∧
      (retryWBGo op base u attempts fuel).invocations = fuel := by
  intro fuel
  induction fuel with
  | zero => intro attempts; exact ⟨rfl, rfl⟩
  | succ n ih =>
    intro attempts
    obtain ⟨c, hc, hr⟩ := h attempts
    simp only [retryWBGo, hc, hr, if_true]
    exact ⟨(ih (attempts + 1)).1, by simp [(ih (attempts + 1)).2]⟩

/-- Under a hypothesis of always-retryable failures, the `retry_delete` loop
uses all its fuel and ends in the exhaustion error. -/
theorem retryDeleteGo_always_retry {α : Type} (op : ℕ → OpOutcome α)
    (description : String) (max_attempts : ℕ) (jitter : ℕ → ℚ)
    (h : ∀ k, ∃ c, op k = OpOutcome.err c ∧ rdRetryable c = true) :
    ∀ fuel attempt,
      (retryDeleteGo op description max_attempts jitter attempt fuel).invocations = fuel ∧
      (retryDeleteGo op description max_attempts jitter attempt fuel).result =
        RDResult.exhausted ("Max retries (" ++ toString max_attempts ++ ") exceeded for "
          ++ description) := by
  intro fuel
  induction fuel with
  | zero => intro attempt; exact ⟨rfl, rfl⟩
  | succ n ih =>
    intro attempt
    obtain ⟨c, hc, hr⟩ := h attempt
    simp only [retryDeleteGo, hc, hr, if_true]
    exact ⟨by simp [(ih (attempt + 1)).1], (ih (attempt + 1)).2⟩

/-! ## Claim theorems -/

/-- C1: for every call to the report-append operation `_record_result` made
while `config.dry_run` is true, the `Report` mapping is left completely
unchanged, and consequently any sequence of `_record_result` calls starting
from the empty report of a dry run ends with an empty report. -/
theorem C1_dry_run_record_noop (config : Config) (h : config.dry_run = true) :
    (∀ (report : Report) (resource_type resource_id : String) (success : Bool)
        (message : String),
      record_result config report resource_type resource_id success message = report) ∧
    (∀ calls : List (String × String × Bool × String),
      calls.foldl
        (fun rep c => record_result config rep c.1 c.2.1 c.2.2.1 c.2.2.2)
        ([] : Report) = []) := by
  have hrec : ∀ (report : Report) rt rid s m,
      record_result config report rt rid s m = report := by
    intro report rt rid s m
    simp [record_result, h]
  refine ⟨hrec, ?_⟩
  intro calls
  induction calls with
  | nil => rfl
  | cons c cs ih => simp [List.foldl, hrec, ih]

/-- C1 witness: a dry-run config leaves a nonempty report untouched and a
whole dry run accumulates the empty report. -/
theorem C1_dry_run_record_noop_witness :
    record_result { defaultConfig with dry_run := true }
        [("EC2 Instances", ⟨["i-0"], []⟩)] "EC2 Instances" "i-1" true "" =
      [("EC2 Instances", ⟨["i-0"], []⟩)] ∧
    [("EC2 Instances", "i-1", true, ""), ("EBS Volumes", "vol-1", false, "in use")].foldl
        (fun rep c => record_result { defaultConfig with dry_run := true }
          rep c.1 c.2.1 c.2.2.1 c.2.2.2) ([] : Report) = [] :=
  ⟨(C1_dry_run_record_noop _ rfl).1 _ _ _ _ _,
   (C1_dry_run_record_noop _ rfl).2 _⟩

/-- C2 counterexample: with `--live-run` absent, a config file containing
`dry_run: false` still yields a `Config` with `dry_run = false`, refuting the
claim that absence of `--live-run` always gives `dry_run = true`. -/
theorem C2_counterexample :
    ¬ (main_config ⟨none, 0, false, false⟩
        (some { emptyConfigData with dry_run := some false })).dry_run = true := by
  decide

/-- C2 amended: `dry_run` defaults to true (dataclass default and empty
file), and the assembled config has `dry_run = false` exactly when
`--live-run` was passed or the config file explicitly set
`dry_run: false`. -/
theorem C2_amended_dry_run_default :
    defaultConfig.dry_run = true ∧
    (_parse_config emptyConfigData).dry_run = true ∧
    ∀ (args : Args) (fileData : Option ConfigData),
      (main_config args fileData).dry_run = false ↔
        (args.live_run = true ∨ ∃ d, fileData = some d ∧ d.dry_run = some false) := by
  refine ⟨rfl, rfl, ?_⟩
  rintro ⟨r, vb, jl, lr⟩ fileData
  have hdr : ∀ fd : Option ConfigData,
      (main_config ⟨r, vb, jl, lr⟩ fd).dry_run =
        (if lr then false else (load_config fd).dry_run) := by
    intro fd
    unfold main_config
    cases r <;> by_cases hv : vb ≠ 0 <;> cases jl <;> cases lr <;> simp [hv]
  rw [hdr]
  cases lr with
  | true => simp
  | false =>
    rcases fileData with _ | d
    · simp [load_config, defaultConfig]
    · rcases hd : d.dry_run with _ | b
      · simp [load_config, _parse_config, hd]
      · cases b <;> simp [load_config, _parse_config, hd]

/-- C6 counterexample: the second preset's sleep after 0-indexed attempt 6
with its default base delay is 64 seconds even with a zero jitter draw,
whereas every sleep of `retry_delete` (whose formula the claim ascribes to
both presets) is capped at 60 seconds — so the two backoff computations are
not identical. -/
theorem C6_counterexample :
    rdwbDelay SLEEP_SHORT 6 0 = 64 ∧
    rdDelay 6 (1 / 2) ≤ 60 ∧ rdDelay 6 (3 / 2) ≤ 60 ∧
    ¬ rdwbDelay SLEEP_SHORT 6 0 ≤ 60 := by
  refine ⟨?_, min_le_right _ _, min_le_right _ _, ?_⟩
  · norm_num [rdwbDelay, SLEEP_SHORT]
  · norm_num [rdwbDelay, SLEEP_SHORT]

/-- C6 amended: the two presets classify exactly the same codes as retryable
and differ in termination (exhaustion error versus returning `False`), but
their backoff math differs: `retry_delete` sleeps
`min(1.2 * 2^i * jitter, 60)` with multiplicative jitter in `[0.5, 1.5)`,
while `retry_delete_with_backoff` sleeps `base * 2^(i-1) + jitter` with
additive jitter in `[0, 1)`, `base` defaulting to 2, and no cap. -/
theorem C6_amended :
    (∀ code, rdRetryable code = rdwbRetryable code) ∧
    (∀ (i : ℕ) (j : ℚ), rdDelay i j ≤ 60) ∧
    rdwbDelay SLEEP_SHORT 6 0 = 64 ∧
    (∀ (i : ℕ) (j u : ℚ), rdDelay i j = min ((6 / 5) * 2 ^ i * j) 60 ∧
      rdwbDelay SLEEP_SHORT i u = 2 * (2 : ℚ) ^ ((i : ℤ) - 1) + u) ∧
    (retry_delete (fun _ => (OpOutcome.err "Throttling" : OpOutcome Unit))
        "op" 3 (fun _ => 1)).result =
      RDResult.exhausted "Max retries (3) exceeded for op" ∧
    (retry_delete_with_backoff (fun _ => (OpOutcome.err "Throttling" : OpOutcome Unit))
        3 SLEEP_SHORT (fun _ => 0)).result = false := by
  refine ⟨fun code => rfl, fun i j => min_le_right _ _, ?_, fun i j u => ⟨rfl, rfl⟩, ?_, ?_⟩
  · norm_num [rdwbDelay, SLEEP_SHORT]
  · rfl
  · rfl

/-- C7: against an operation that raises a retryable (throttling) error on
every invocation, `retry_delete` with `max_attempts = 3` invokes the
operation exactly 3 times and then raises the exhaustion error whose message
names the attempt count, while `retry_delete_with_backoff` invokes the
operation exactly `max_attempts` times and then returns `False`. -/
theorem C7_retry_exhaustion {α : Type} (op : ℕ → OpOutcome α)
    (description : String) (jitter u : ℕ → ℚ) (base : ℚ)
    (h : ∀ k, ∃ c, op k = OpOutcome.err c ∧ rdRetryable c = true) :
    ((retry_delete op description 3 jitter).invocations = 3 ∧
      (retry_delete op description 3 jitter).result =
        RDResult.exhausted ("Max retries (3) exceeded for " ++ description)) ∧
    ∀ max_attempts : ℕ,
      (retry_delete_with_backoff op max_attempts base u).invocations = max_attempts ∧
      (retry_delete_with_backoff op max_attempts base u).result = false := by
  constructor
  · have h3 := retryDeleteGo_always_retry op description 3 jitter h 3 0
    exact ⟨h3.1, h3.2⟩
  · intro max_attempts
    have hw := retryWBGo_always_retry op base u h max_attempts 0
    exact ⟨hw.2, hw.1⟩

/-- C7 witness: a concrete always-throttling operation. -/
theorem C7_retry_exhaustion_witness :
    ((retry_delete (fun _ => (OpOutcome.err "Throttling" : OpOutcome Unit))
        "delete bucket" 3 (fun _ => 1)).invocations = 3 ∧
      (retry_delete (fun _ => (OpOutcome.err "Throttling" : OpOutcome Unit))
        "delete bucket" 3 (fun _ => 1)).result =
        RDResult.exhausted ("Max retries (3) exceeded for " ++ "delete bucket")) ∧
    ((retry_delete_with_backoff (fun _ => (OpOutcome.err "Throttling" : OpOutcome Unit))
        3 SLEEP_SHORT (fun _ => 0)).invocations = 3 ∧
      (retry_delete_with_backoff (fun _ => (OpOutcome.err "Throttling" : OpOutcome Unit))
        3 SLEEP_SHORT (fun _ => 0)).result = false) :=
  ⟨(C7_retry_exhaustion (fun _ => (OpOutcome.err "Throttling" : OpOutcome Unit))
      "delete bucket" (fun _ => 1) (fun _ => 0) SLEEP_SHORT
      (fun _ => ⟨"Throttling", rfl, rfl⟩)).1,
   (C7_retry_exhaustion (fun _ => (OpOutcome.err "Throttling" : OpOutcome Unit))
      "delete bucket" (fun _ => 1) (fun _ => 0) SLEEP_SHORT
      (fun _ => ⟨"Throttling", rfl, rfl⟩)).2 3⟩

/-- C8: against an operation that raises a non-retryable (fatal) error on its
first invocation, each preset invokes the operation exactly once with no
backoff sleep; `retry_delete` propagates the error and
`retry_delete_with_backoff` returns `False`. -/
theorem C8_fatal_no_retry {α : Type} (op : ℕ → OpOutcome α)
    (description : String) (max_attempts : ℕ) (jitter u : ℕ → ℚ) (base : ℚ)
    (c : String) (h1 : op 0 = OpOutcome.err c) (h2 : rdRetryable c = false)
    (hm : 1 ≤ max_attempts) :
    retry_delete op description max_attempts jitter = ⟨RDResult.raised c, 1, []⟩ ∧
    retry_delete_with_backoff op max_attempts base u = ⟨false, 1, []⟩ := by
  obtain ⟨m, rfl⟩ : ∃ m, max_attempts = m + 1 := ⟨max_attempts - 1, by omega⟩
  have h2w : rdwbRetryable c = false := h2
  constructor
  · simp [retry_delete, retryDeleteGo, h1, h2]
  · simp [retry_delete_with_backoff, retryWBGo, h1, h2w]

/-- C8 witness: a concrete operation failing fatally on invocation 1. -/
theorem C8_fatal_no_retry_witness :
    retry_delete (fun _ => (OpOutcome.err "AccessDenied" : OpOutcome Unit))
        "delete role" 8 (fun _ => 1) = ⟨RDResult.raised "AccessDenied", 1, []⟩ ∧
    retry_delete_with_backoff (fun _ => (OpOutcome.err "AccessDenied" : OpOutcome Unit))
        8 SLEEP_SHORT (fun _ => 0) = ⟨false, 1, []⟩ :=
  C8_fatal_no_retry _ "delete role" 8 _ _ SLEEP_SHORT "AccessDenied" rfl rfl
    (by norm_num)

/-- C9 counterexample: in the category loop of `cleanup_region`, a failure of
category "a" escapes uncaught (`some "boom"`) and category "b", although
later in the execution order, is never invoked — refuting the claim that
`cleanup_region` catches the failure and still invokes the remaining
categories. -/
theorem C9_counterexample :
    run_in_order (fun _ => true)
        (fun s => if s = "a" then Except.error "boom" else Except.ok ())
        ["a", "b"] = (["a"], some "boom") ∧
    "b" ∉ (run_in_order (fun _ => true)
        (fun s => if s = "a" then Except.error "boom" else Except.ok ())
        ["a", "b"]).1 := by
  constructor
  · rfl
  · decide

/-- C9 amended: an uncaught failure from one category propagates out of the
`cleanup_region` loop — the categories after it are not invoked — and is
caught one level up in `purge_aws`, which records a `'Region Errors'` outcome
for the region and continues with the remaining regions. -/
theorem C9_amended :
    (∀ (hasCleaner : String → Bool) (cleanup : String → Except String Unit)
        (l1 : List String) (r : String) (l2 : List String) (e : String),
      (∀ x ∈ l1, cleanup x = Except.ok ()) → hasCleaner r = true →
      cleanup r = Except.error e →
      run_in_order hasCleaner cleanup (l1 ++ r :: l2) =
        (l1.filter hasCleaner ++ [r], some e)) ∧
    (∀ (config : Config) (regionResult : String → Except String Unit)
        (r : String) (rest : List String) (report : Report) (e : String),
      regionResult r = Except.error e →
      purge_regions config regionResult (r :: rest) report =
        purge_regions config regionResult rest
          (record_result config report "Region Errors" r false e)) := by
  constructor
  · intro hasCleaner cleanup l1 r l2 e hok hr he
    induction l1 with
    | nil => simp [run_in_order, hr, he]
    | cons x xs ih =>
      have hx : cleanup x = Except.ok () := hok x (by simp)
      have ih' := ih (fun y hy => hok y (by simp [hy]))
      by_cases hc : hasCleaner x = true
      · simp [run_in_order, hc, hx, ih', List.filter_cons]
      · simp only [Bool.not_eq_true] at hc
        simp [run_in_order, hc, ih', List.filter_cons]
  · intro config regionResult r rest report e he
    simp [purge_regions, he]

/-- C9 witness: a concrete order in which the third of four categories fails
and the fourth is dropped, plus a concrete two-region purge where the first
region fails and the second is still processed into the report fold. -/
theorem C9_amended_witness :
    run_in_order (fun _ => true)
        (fun s => if s = "c" then Except.error "x" else Except.ok ())
        (["a", "b"] ++ "c" :: ["d"]) = (["a", "b", "c"], some "x") ∧
    purge_regions defaultConfig
        (fun r => if r = "r1" then Except.error "x" else Except.ok ())
        ("r1" :: ["r2"]) [] =
      purge_regions defaultConfig
        (fun r => if r = "r1" then Except.error "x" else Except.ok ())
        ["r2"] (record_result defaultConfig [] "Region Errors" "r1" false "x") :=
  ⟨C9_amended.1 (fun _ => true)
      (fun s => if s = "c" then Except.error "x" else Except.ok ())
      ["a", "b"] "c" ["d"] "x" (by intro x hx; fin_cases hx <;> rfl) rfl rfl,
   C9_amended.2 defaultConfig _ "r1" ["r2"] [] "x" rfl⟩

/-- C10: the EBS cleaner class declares no `prerequisites` attribute at all
(so not the claimed `["ec2"]`), and the graph-building loop of
`cleanup_region` — which reads `cleaner.prerequisites` for every registered
cleaner — aborts with an `AttributeError` (already at the first cleaner,
`s3`, which also lacks the attribute) before any execution order over the
registered cleaners is computed. -/
theorem C10_ebs_missing_prerequisites :
    ebsDeclaredPrereqs = none ∧
    registerCleaners cleaners_map [] =
      Except.error "AttributeError: s3 cleaner object has no attribute prerequisites" :=
  ⟨rfl, rfl⟩

/-- C3: for every dependency graph built by `add_node` calls whose
prerequisite relation is acyclic, `get_execution_order` returns a sequence
containing each node of the graph (including nodes appearing only as
prerequisites) exactly once, in which every prerequisite appears strictly
before every node that declares it. -/
theorem C3_topological_order (g : AddCalls) (h : ¬ HasCycle g) :
    List.Perm (get_execution_order g) (gNodes g) ∧
    (∀ n, n ∈ gNodes g → (get_execution_order g).count n = 1) ∧
    (∀ n p, p ∈ prereqsOf g n → List.Sublist [p, n] (get_execution_order g)) := by
  have hcomp := kahnPart_complete_of_acyclic g h
  have horder : get_execution_order g = kahnPart g := by
    rw [get_execution_order_eq, if_pos hcomp]
  have hperm := get_execution_order_perm g
  refine ⟨hperm, ?_, ?_⟩
  · intro n hn
    have h1 : (get_execution_order g).count n = (gNodes g).count n := hperm.count_eq n
    have h2 : (gNodes g).count n ≤ 1 :=
      List.nodup_iff_count_le_one.mp (gNodes_nodup g) n
    have h3 : (gNodes g).count n ≠ 0 := by
      simp only [ne_eq, List.count_eq_zero]
      simp [hn]
    omega
  · intro n p hp
    have hn_mem : n ∈ gNodes g := (mem_gNodes_of_prereq hp).2
    have hn_ord : n ∈ get_execution_order g := hperm.mem_iff.mpr hn_mem
    obtain ⟨l1, l2, hsplit⟩ := List.append_of_mem hn_ord
    have hp_l1 : p ∈ l1 := by
      have hsplit2 : kahnPart g = l1 ++ n :: l2 := by
        rw [← horder]
        exact hsplit
      exact kahnPart_accClosed g l1 n l2 hsplit2 p hp
    obtain ⟨s, t, hl1⟩ := List.append_of_mem hp_l1
    have hall : get_execution_order g = s ++ p :: (t ++ n :: l2) := by
      rw [hsplit, hl1]
      simp
    rw [hall]
    have hsub1 : List.Sublist [n] (t ++ n :: l2) :=
      List.singleton_sublist.mpr (by simp)
    have hsub2 : List.Sublist [p, n] (p :: (t ++ n :: l2)) :=
      List.Sublist.cons₂ p hsub1
    exact hsub2.trans (List.sublist_append_right s _)

/-- C3 witness: the graph with the single call `add_node("ebs", ["ec2"])`,
acyclic via the rank `ec2 ↦ 0, _ ↦ 1`. -/
theorem C3_topological_order_witness :
    List.Perm (get_execution_order [("ebs", ["ec2"])]) (gNodes [("ebs", ["ec2"])]) ∧
    (get_execution_order [("ebs", ["ec2"])]).count "ec2" = 1 ∧
    List.Sublist ["ec2", "ebs"] (get_execution_order [("ebs", ["ec2"])]) := by
  have hpre : ∀ n, prereqsOf [("ebs", ["ec2"])] n =
      if n = "ebs" then ["ec2"] else [] := by
    intro n
    have he : ([("ebs", ["ec2"])] : AddCalls) = [] ++ [("ebs", ["ec2"])] := rfl
    rw [he, prereqsOf_append_singleton, prereqsOf_nil]
  have hacyc : ¬ HasCycle [("ebs", ["ec2"])] := by
    apply not_hasCycle_of_rank _ (fun s => if s = "ec2" then 0 else 1)
    intro n p hp
    rw [hpre n] at hp
    by_cases hn : n = "ebs"
    · rw [if_pos hn] at hp
      have hpe : p = "ec2" := by simpa using hp
      subst hpe
      subst hn
      decide
    · rw [if_neg hn] at hp
      simp at hp
  have h := C3_topological_order [("ebs", ["ec2"])] hacyc
  exact ⟨h.1, h.2.1 "ec2" (by decide), h.2.2 "ebs" "ec2" (by decide)⟩

/-- C4: the order is deterministic with a lexicographic tie-break.  First,
every node appended by the `while` loop is, at its step (processed prefix
`l1`), the lexicographically smallest of the then-ready (in-degree-zero,
unprocessed) nodes.  Second, two graphs with identical node sets and
identical per-node prerequisite multisets yield the identical order,
regardless of the order in which `add_node` was called. -/
theorem C4_deterministic_lex (g g1 g2 : AddCalls) :
    (∀ l1 u l2, kahnPart g = l1 ++ u :: l2 →
      u ∈ readyList (gNodes g) (prereqsOf g) l1 ∧
      ∀ v ∈ readyList (gNodes g) (prereqsOf g) l1, strLe u v) ∧
    (List.Perm (gNodes g1) (gNodes g2) →
      (∀ n, List.Perm (prereqsOf g1 n) (prereqsOf g2 n)) →
      get_execution_order g1 = get_execution_order g2) := by
  refine ⟨(kahnPart_spec g).2, ?_⟩
  intro hN hP
  have hNodes : gNodes g1 = gNodes g2 :=
    List.eq_of_perm_of_sorted hN (gNodes_sorted g1) (gNodes_sorted g2)
  have hI : gIndeg0 g1 = gIndeg0 g2 := by
    funext v
    unfold gIndeg0
    rw [(hP v).length_eq]
  have hQ : gQueue0 g1 = gQueue0 g2 := by
    unfold gQueue0
    rw [hNodes, hI]
  have hK : kahnPart g1 = kahnPart g2 := by
    unfold kahnPart
    rw [hNodes, hI, hQ]
    exact kahnLoop_congr (prereqsOf g1) (prereqsOf g2) (gNodes g2) hP _ _ _ _
  rw [get_execution_order_eq, get_execution_order_eq, hK, hNodes]

/-- C4 witness: in the two-node graph `ebs → ec2` the first appended node is
`"ec2"`, the least ready node; and two builds of the same `vpc` graph whose
prerequisite lists are permutations of each other give the same order. -/
theorem C4_deterministic_lex_witness :
    ("ec2" ∈ readyList (gNodes [("ebs", ["ec2"])]) (prereqsOf [("ebs", ["ec2"])]) [] ∧
      ∀ v ∈ readyList (gNodes [("ebs", ["ec2"])]) (prereqsOf [("ebs", ["ec2"])]) [],
        strLe "ec2" v) ∧
    get_execution_order [("vpc", ["ec2", "ebs"])] =
      get_execution_order [("vpc", ["ebs", "ec2"])] := by
  constructor
  · exact (C4_deterministic_lex [("ebs", ["ec2"])] [] []).1 [] "ec2" ["ebs"] (by decide)
  · apply (C4_deterministic_lex [] [("vpc", ["ec2", "ebs"])] [("vpc", ["ebs", "ec2"])]).2
    · decide
    · intro n
      have e1 : ([("vpc", ["ec2", "ebs"])] : AddCalls) =
          [] ++ [("vpc", ["ec2", "ebs"])] := rfl
      have e2 : ([("vpc", ["ebs", "ec2"])] : AddCalls) =
          [] ++ [("vpc", ["ebs", "ec2"])] := rfl
      rw [e1, e2, prereqsOf_append_singleton, prereqsOf_append_singleton]
      by_cases hn : n = "vpc"
      · rw [if_pos hn, if_pos hn]
        decide
      · rw [if_neg hn, if_neg hn]

/-- C5: `get_execution_order` never raises — it is a total function that, on
every graph (cyclic ones included), returns each node exactly once (the
unresolved remainder is appended, sorted, after the resolvable prefix); in
particular for `a` requiring `b` and `b` requiring `a` it returns the
2-element list `["a", "b"]`, which is exactly `{a, b}`, and that graph really
does contain a cycle. -/
theorem C5_cycle_fallback :
    (∀ g : AddCalls, List.Perm (get_execution_order g) (gNodes g)) ∧
    get_execution_order [("a", ["b"]), ("b", ["a"])] = ["a", "b"] ∧
    HasCycle [("a", ["b"]), ("b", ["a"])] := by
  refine ⟨get_execution_order_perm, by decide, ?_⟩
  refine ⟨"a", 2, fun m => if m % 2 = 0 then "a" else "b", by omega, by simp, by simp, ?_⟩
  intro m hm
  interval_cases m
  · decide
  · decide

end AWSwipe
